import Mathlib

/-!
Verification development for deduplify's `hash_files.py`.

The Python module is shallowly embedded: Python dicts become ordered
association lists (`Dict`), the MD5 accumulator becomes an abstract digest
function over the byte list fed to it, file-system interaction is made
explicit through an `Env` record (walk output, per-path hashing oracle,
existence flags), and worker-pool completion is modelled by processing the
batch's results in an explicit retrieval order.
-/

namespace Deduplify

/-- A Python dict with insertion order: an association list whose keys are
unique in any state actually produced by the program. -/
abbrev Dict (α : Type) := List (String × α)

/-- Dict lookup: the first binding of the key, mirroring Python's `d[k]`
(dict keys are unique, so first is the only one). -/
def dictGet {α : Type} (d : Dict α) (k : String) : Option α :=
  (d.find? (fun kv => kv.1 == k)).map (·.2)

/-- The dict invariant: keys are pairwise distinct. -/
def keysNodup {α : Type} (d : Dict α) : Prop :=
  (d.map (·.1)).Nodup

/-- The comprehension filter of `filter_dict` for unique hashes: keeps an
entry whose value has length exactly one and unwraps it to `value[0]`. -/
def uniqueEntry (kv : String × List String) : Option (String × String) :=
  match kv.2 with
  | [p] => some (kv.1, p)
  | _ => none

/-- `filter_dict` from `hash_files.py`: splits a digest-to-paths mapping
into the duplicated entries (`len(value) > 1`, kept whole) and the unique
entries (`len(value) == 1`, value unwrapped to the single path). -/
def filter_dict (results : Dict (List String)) : Dict (List String) × Dict String :=
  (results.filter (fun kv => decide (1 < kv.2.length)),
   results.filterMap uniqueEntry)

/-- The dict-merge expression of run_hash's restart branch,
`pre_hashed_dict = \x7b**dup_dict, **un_dict\x7d`: keys of the first dict
in their order with values overridden by the second dict where the key
recurs, followed by the keys only in the second dict, in their order. -/
def dictMerge {α : Type} (a b : Dict α) : Dict α :=
  a.map (fun kv =>
    match dictGet b kv.1 with
    | some w => (kv.1, w)
    | none => kv)
  ++ b.filter (fun kv => (dictGet a kv.1).isNone)

/-- Restart branch of `run_hash`: every single-path value of the uniques
document is wrapped into a one-element list, the result is merged with
the duplicates document (`pre_hashed_dict = \x7b**dup_dict, **un_dict\x7d`)
and all merged values are flattened, in order, into `files_to_skip`. -/
def resumeState (dup_dict : Dict (List String)) (un_dict : Dict String) :
    Dict (List String) × List String :=
  let pre_hashed_dict :=
    dictMerge dup_dict (un_dict.map (fun kv => (kv.1, [kv.2])))
  (pre_hashed_dict, (pre_hashed_dict.map (fun kv => kv.2)).flatten)

/-- JSON string literal for a digest or path (the program's digests and
paths contain no characters needing JSON escapes). -/
def jsonQuote (s : String) : String := "\x22" ++ s ++ "\x22"

/-- The json.dump rendering, with indent=2, of a list of strings nested at
depth one. -/
def renderPathList (xs : List String) : String :=
  if xs.isEmpty then "[]"
  else "[\n" ++ String.intercalate ",\n"
    (xs.map (fun x => "    " ++ jsonQuote x)) ++ "\n  ]"

/-- Key ordering applied by json.dump's sort_keys=True. -/
def sortDict {α : Type} (d : Dict α) : Dict α :=
  d.insertionSort (fun a b => a.1 ≤ b.1)

/-- Rendering of an already key-sorted duplicates document (digest to
sequence of paths), laid out as json.dump(content, f, indent=2) does. -/
def renderDupSorted (l : Dict (List String)) : String :=
  if l.isEmpty then "\x7b\x7d"
  else "\x7b\n" ++ String.intercalate ",\n"
    (l.map (fun kv => "  " ++ jsonQuote kv.1 ++ ": " ++ renderPathList kv.2))
    ++ "\n\x7d"

/-- Rendering of an already key-sorted uniques document (digest to single
path string). -/
def renderUnSorted (l : Dict String) : String :=
  if l.isEmpty then "\x7b\x7d"
  else "\x7b\n" ++ String.intercalate ",\n"
    (l.map (fun kv => "  " ++ jsonQuote kv.1 ++ ": " ++ jsonQuote kv.2))
    ++ "\n\x7d"

/-- json.dump(content, f, indent=2, sort_keys=True) for the duplicates
document. -/
def renderDupJson (d : Dict (List String)) : String :=
  renderDupSorted (sortDict d)

/-- json.dump(content, f, indent=2, sort_keys=True) for the uniques
document. -/
def renderUnJson (d : Dict String) : String :=
  renderUnSorted (sortDict d)

/-- The write step run after every recorded result: filter the whole
current store and serialize both partitions in full. The pair is the
content written to (dupfile, unfile), overwriting the previous content. -/
def writeOutputs (hashes : Dict (List String)) : String × String :=
  (renderDupJson (filter_dict hashes).1, renderUnJson (filter_dict hashes).2)

/-- `hashes[hash].append(filepath)` on a `defaultdict(list)`. -/
def recordResult (hashes : Dict (List String)) (h p : String) :
    Dict (List String) :=
  if (dictGet hashes h).isSome then
    hashes.map (fun kv => if kv.1 == h then (kv.1, kv.2 ++ [p]) else kv)
  else hashes ++ [(h, [p])]

/-- The as_completed loop over one directory batch, processing worker
outcomes in retrieval order: a successful (digest, path) pair is recorded
and the full partition rewritten to both files; retrieving a failed task
re-raises its exception in the coordinating thread, aborting the loop, so
later outcomes of the batch are discarded. Returns the writes performed
and either the updated store or the escaping error. -/
def processBatch :
    List (Except String (String × String)) → Dict (List String) →
      List (String × String) × Except String (Dict (List String))
  | [], hashes => ([], Except.ok hashes)
  | Except.error e :: _, _ => ([], Except.error e)
  | Except.ok (h, p) :: rest, hashes =>
      let hashes' := recordResult hashes h p
      let res := processBatch rest hashes'
      (writeOutputs hashes' :: res.1, res.2)

/-- One directory batch of os.walk: the directory path and the names of
the files directly in it. -/
structure WalkEntry where
  dirName : String
  fileList : List String

/-- os.path.join for the shapes os.walk produces (non-empty directory
path, bare file name). -/
def joinPath (d f : String) : String := d ++ "/" ++ f

/-- The file-system environment run_hash interacts with: existence flags,
the parsed contents of the two restart documents, the os.walk output and
the per-path outcome of hashfile (its digest, or the I/O error the open
or read raises). -/
structure Env where
  dirExists : Bool
  dupfilePath : String
  unfilePath : String
  dupfileExists : Bool
  unfileExists : Bool
  dup_dict : Dict (List String)
  un_dict : Dict String
  walk : List WalkEntry
  hashOf : String → Except String String

/-- The os.walk loop of run_hash: per directory, one hashing task is
submitted for every file name not contained in files_to_skip, then the
batch's results are retrieved. Worker completion order is nondeterministic
in the program; the model retrieves results in submission order, one
admissible schedule. -/
def walkLoop (env : Env) (files_to_skip : List String) :
    List WalkEntry → Dict (List String) →
      List (String × String) × Except String (Dict (List String))
  | [], hashes => ([], Except.ok hashes)
  | we :: rest, hashes =>
      let submitted := (we.fileList.filter
        (fun f => !files_to_skip.contains f)).map (joinPath we.dirName)
      let results := submitted.map
        (fun p => (env.hashOf p).map (fun h => (h, p)))
      let res := processBatch results hashes
      match res.2 with
      | Except.error e => (res.1, Except.error e)
      | Except.ok hashes' =>
          let res' := walkLoop env files_to_skip rest hashes'
          (res.1 ++ res'.1, res'.2)

/-- run_hash from hash_files.py. The first component is the sequence of
(dupfile, unfile) contents written, in order; the second is the final
store, or the exception that escaped. The pre-count that only feeds the
progress bar is omitted: it influences no output. -/
def run_hash (env : Env) (restart : Bool) :
    List (String × String) × Except String (Dict (List String)) :=
  if !env.dirExists then
    ([], Except.error "Please provide a known filepath!")
  else if restart && !env.dupfileExists then
    ([], Except.error (env.dupfilePath ++ " must exist to restart a hash run!"))
  else if restart && !env.unfileExists then
    ([], Except.error (env.unfilePath ++ " must exist to restart a hash run!"))
  else
    let st := if restart then resumeState env.dup_dict env.un_dict else ([], [])
    walkLoop env st.2 env.walk st.1

/-- An environment whose root directory is missing. -/
def envMissingDir : Env :=
  { dirExists := false, dupfilePath := "dups.json",
    unfilePath := "uniques.json", dupfileExists := false,
    unfileExists := false, dup_dict := [], un_dict := [], walk := [],
    hashOf := fun _ => Except.error "unused" }

/-- The restart scenario of the spec: the uniques document records
d1 -> /x/a.txt, and the walk of the root finds a.txt inside /x. -/
def envC1 : Env :=
  { dirExists := true, dupfilePath := "dups.json",
    unfilePath := "uniques.json", dupfileExists := true,
    unfileExists := true, dup_dict := [],
    un_dict := [("d1", "/x/a.txt")],
    walk := [⟨"/x", ["a.txt"]⟩],
    hashOf := fun p =>
      if p == "/x/a.txt" then Except.ok "d1"
      else Except.error "unreadable" }

/-- A batch with one unreadable file followed by a healthy sibling. -/
def envC2 : Env :=
  { dirExists := true, dupfilePath := "dups.json",
    unfilePath := "uniques.json", dupfileExists := true,
    unfileExists := true, dup_dict := [], un_dict := [],
    walk := [⟨"/r", ["bad.txt", "good.txt"]⟩],
    hashOf := fun p =>
      if p == "/r/bad.txt" then
        Except.error "Permission denied: /r/bad.txt"
      else Except.ok "h1" }

/-- The classification-store states reached after each successive recorded
result of a batch. -/
def prefixStores (hashes : Dict (List String)) :
    List (String × String) → List (Dict (List String))
  | [] => []
  | (h, p) :: rest =>
      let hashes' := recordResult hashes h p
      hashes' :: prefixStores hashes' rest

instance {α : Type} : IsTotal (String × α) (fun a b => a.1 ≤ b.1) :=
  ⟨fun a b => le_total a.1 b.1⟩

instance {α : Type} : IsTrans (String × α) (fun a b => a.1 ≤ b.1) :=
  ⟨fun _ _ _ h h' => le_trans h h'⟩

instance {α : Type} : IsAntisymm (String × α) (fun a b => a.1 < b.1) :=
  ⟨fun _ _ h h' => absurd (lt_trans h h') (lt_irrefl _)⟩

/-- The successive buffers `f.read(blocksize)` returns in hashfile's read
loop, which stops at the first empty buffer. A blocksize of zero is
modelled faithfully: read(0) always returns an empty buffer, so the loop
body never runs. -/
def readChunks (content : List Nat) (blocksize : Nat) : List (List Nat) :=
  if hb : blocksize = 0 then []
  else if hc : content.isEmpty then []
  else content.take blocksize :: readChunks (content.drop blocksize) blocksize
termination_by content.length
decreasing_by
  rw [List.length_drop]
  have hlen : content ≠ [] := by simpa using hc
  have : 0 < content.length := List.length_pos.mpr hlen
  omega

/-- hashfile from hash_files.py, parametrized by the digest function of
the hashlib.md5 accumulator: updating the accumulator with successive
chunks feeds it their concatenation, so the returned digest is the digest
of all bytes read, paired with the path. -/
def hashfile (md5 : List Nat → String) (path : String) (content : List Nat)
    (blocksize : Nat) : String × String :=
  (md5 ((readChunks content blocksize).foldl (fun fed buf => fed ++ buf) []),
   path)

/-- A root directory as os.listdir sees it: the names of the files
directly in it and its immediate subdirectories (each with the files
nested inside, which os.listdir does not show). os.listdir returns the
names of both kinds of entry, undistinguished. -/
structure RootDir where
  files : List String
  subdirs : List (String × List String)

/-- os.listdir of the root: the names of all direct entries, files and
subdirectories alike. -/
def listdirOf (r : RootDir) : List String :=
  r.files ++ r.subdirs.map (fun sd => sd.1)

/-- fnmatch against the pattern "*" ++ file_ext for an extension string
without wildcard characters: the name matches exactly when it ends with
the extension (the star consumes the rest of the name). -/
def matchesExt (file_ext name : String) : Bool :=
  decide (file_ext.data.length ≤ name.data.length)
    && (name.data.drop (name.data.length - file_ext.data.length)
        == file_ext.data)

/-- get_total_number_of_files from hash_files.py:
`len(fnmatch.filter(os.listdir(dirpath), "*" + file_ext))`. -/
def get_total_number_of_files (r : RootDir) (file_ext : String) : Nat :=
  ((listdirOf r).filter (matchesExt file_ext)).length

/-- The number of actual files matching the filter anywhere in the tree
(root files plus files nested one level down), for comparison. -/
def totalMatchingFiles (r : RootDir) (file_ext : String) : Nat :=
  (r.files.filter (matchesExt file_ext)).length
    + (r.subdirs.map
        (fun sd => (sd.2.filter (matchesExt file_ext)).length)).sum

theorem uniqueEntry_eq_some {kv : String × List String} {k p : String} :
    uniqueEntry kv = some (k, p) ↔ kv = (k, [p]) := by
  obtain ⟨k', v⟩ := kv
  constructor
  · intro h
    match v with
    | [] => simp [uniqueEntry] at h
    | [q] =>
        simp [uniqueEntry] at h
        simp [h.1, h.2]
    | q :: r :: t => simp [uniqueEntry] at h
  · intro h
    cases h
    rfl

theorem dictGet_cons_eq {α : Type} (kv : String × α) (d : Dict α) (k : String) :
    dictGet (kv :: d) k = bif kv.1 == k then some kv.2 else dictGet d k := by
  cases h : (kv.1 == k) <;> simp [dictGet, List.find?_cons, h]

theorem dictGet_eq_none_iff {α : Type} {d : Dict α} {k : String} :
    dictGet d k = none ↔ ∀ v, (k, v) ∉ d := by
  induction d with
  | nil => simp [dictGet]
  | cons kv d ih =>
      rw [dictGet_cons_eq]
      cases h : (kv.1 == k) with
      | false =>
          have hk : kv.1 ≠ k := by simpa using h
          simp only [cond_false]
          rw [ih]
          constructor
          · intro hall v hv
            rcases List.mem_cons.mp hv with hv | hv
            · exact hk (congrArg Prod.fst hv).symm
            · exact hall v hv
          · intro hall v hv
            exact hall v (List.mem_cons_of_mem _ hv)
      | true =>
          have hk : kv.1 = k := eq_of_beq h
          subst hk
          simp only [cond_true]
          constructor
          · intro h'
            cases h'
          · intro hall
            exact absurd (List.mem_cons_self kv d) (hall kv.2)

theorem keysNodup_cons {α : Type} {kv : String × α} {d : Dict α}
    (h : keysNodup (kv :: d)) :
    keysNodup d ∧ ∀ v, (kv.1, v) ∉ d := by
  unfold keysNodup at h ⊢
  rw [List.map_cons, List.nodup_cons] at h
  refine ⟨h.2, fun v hv => ?_⟩
  exact h.1 (List.mem_map.mpr ⟨(kv.1, v), hv, rfl⟩)

theorem dictGet_eq_some_iff {α : Type} {d : Dict α} {k : String} {v : α}
    (hnd : keysNodup d) :
    dictGet d k = some v ↔ (k, v) ∈ d := by
  induction d with
  | nil => simp [dictGet]
  | cons kv d ih =>
      obtain ⟨hd, hnotin⟩ := keysNodup_cons hnd
      rw [dictGet_cons_eq]
      cases h : (kv.1 == k) with
      | true =>
          have hk : kv.1 = k := eq_of_beq h
          subst hk
          simp only [cond_true, Option.some.injEq, List.mem_cons]
          constructor
          · intro hv
            left
            rw [← hv]
          · rintro (hv | hv)
            · exact (congrArg Prod.snd hv).symm
            · exact absurd hv (hnotin v)
      | false =>
          have hk : kv.1 ≠ k := by simpa using h
          simp only [cond_false, List.mem_cons]
          rw [ih hd]
          constructor
          · exact Or.inr
          · rintro (hv | hv)
            · exact absurd (congrArg Prod.fst hv).symm hk
            · exact hv

theorem keysNodup_value_eq {α : Type} {d : Dict α} {k : String} {v₁ v₂ : α}
    (hnd : keysNodup d) (h1 : (k, v₁) ∈ d) (h2 : (k, v₂) ∈ d) : v₁ = v₂ := by
  have e1 := (dictGet_eq_some_iff hnd).mpr h1
  have e2 := (dictGet_eq_some_iff hnd).mpr h2
  rw [e1] at e2
  exact Option.some.inj e2

theorem mem_filter_dict_fst {results : Dict (List String)} {k : String}
    {v : List String} :
    (k, v) ∈ (filter_dict results).1 ↔ ((k, v) ∈ results ∧ 2 ≤ v.length) := by
  simp only [filter_dict, List.mem_filter, decide_eq_true_eq]
  exact and_congr_right fun _ => by omega

theorem mem_filter_dict_snd {results : Dict (List String)} {k p : String} :
    (k, p) ∈ (filter_dict results).2 ↔ (k, [p]) ∈ results := by
  simp only [filter_dict, List.mem_filterMap]
  constructor
  · rintro ⟨kv, hmem, heq⟩
    rw [uniqueEntry_eq_some] at heq
    rwa [← heq]
  · intro h
    exact ⟨(k, [p]), h, by simp [uniqueEntry]⟩

/-- C3: for every digest-to-sequence mapping, `filter_dict` returns a pair
whose first component holds exactly the entries with at least two paths
(the sequence kept whole, order of entries unchanged: a sublist of the
input) and whose second holds exactly the entries with a single path,
unwrapped to that path. -/
theorem filter_dict_partitions (results : Dict (List String)) :
    (∀ k v, (k, v) ∈ (filter_dict results).1 ↔ ((k, v) ∈ results ∧ 2 ≤ v.length)) ∧
    (∀ k p, (k, p) ∈ (filter_dict results).2 ↔ (k, [p]) ∈ results) ∧
    List.Sublist (filter_dict results).1 results :=
  ⟨fun _ _ => mem_filter_dict_fst, fun _ _ => mem_filter_dict_snd,
   List.filter_sublist _⟩

/-- C9: an input entry whose sequence is empty appears in neither component
of `filter_dict`'s output (it is silently dropped, so the union of the two
output key sets can be a strict subset of the input key set, as the
evaluation of `filter_dict` on the singleton empty-sequence dict shows). -/
theorem filter_dict_drops_empty (results : Dict (List String)) (k : String)
    (hmem : (k, ([] : List String)) ∈ results) (hnd : keysNodup results) :
    dictGet (filter_dict results).1 k = none ∧
    dictGet (filter_dict results).2 k = none ∧
    filter_dict [(k, ([] : List String))] = ([], []) := by
  refine ⟨?_, ?_, rfl⟩
  · rw [dictGet_eq_none_iff]
    intro v hv
    obtain ⟨hv, hlen⟩ := mem_filter_dict_fst.mp hv
    have : v = [] := keysNodup_value_eq hnd hv hmem
    subst this
    simp at hlen
  · rw [dictGet_eq_none_iff]
    intro p hp
    have hv := mem_filter_dict_snd.mp hp
    have : [p] = ([] : List String) := keysNodup_value_eq hnd hv hmem
    cases this

/-- Witness for C9 at a concrete input. -/
theorem filter_dict_drops_empty_witness :
    dictGet (filter_dict [("d0", ["p"]), ("d1", [])]).1 "d1" = none ∧
    dictGet (filter_dict [("d0", ["p"]), ("d1", [])]).2 "d1" = none ∧
    filter_dict [("d1", ([] : List String))] = ([], []) :=
  filter_dict_drops_empty [("d0", ["p"]), ("d1", [])] "d1" (by decide)
    (by unfold keysNodup; decide)

theorem find?_filter_of_imp {α : Type} (l : List α) (p q : α → Bool)
    (h : ∀ x, p x = true → q x = true) :
    (l.filter q).find? p = l.find? p := by
  induction l with
  | nil => rfl
  | cons x l ih =>
      by_cases hq : q x = true
      · rw [List.filter_cons_of_pos hq, List.find?_cons, List.find?_cons]
        cases hp : p x <;> simp [hp, ih]
      · have hp : p x = false := by
          cases hp : p x
          · rfl
          · exact absurd (h x hp) hq
        rw [List.filter_cons_of_neg (by simp [hq]), List.find?_cons, hp]
        simpa [hp] using ih

theorem find?_append_eq {α : Type} (l₁ l₂ : List α) (p : α → Bool) :
    (l₁ ++ l₂).find? p
      = match l₁.find? p with
        | some x => some x
        | none => l₂.find? p := by
  induction l₁ with
  | nil => rfl
  | cons x l ih =>
      rw [List.cons_append, List.find?_cons, List.find?_cons]
      cases hp : p x <;> simp [ih]

theorem find?_map_eq {α β : Type} (l : List α) (f : α → β) (p : β → Bool) :
    (l.map f).find? p = (l.find? (fun x => p (f x))).map f := by
  induction l with
  | nil => rfl
  | cons x l ih =>
      rw [List.map_cons, List.find?_cons, List.find?_cons]
      cases hp : p (f x) <;> simp [hp, ih]

theorem dictGet_append {α : Type} (l₁ l₂ : Dict α) (k : String) :
    dictGet (l₁ ++ l₂) k
      = match dictGet l₁ k with
        | some v => some v
        | none => dictGet l₂ k := by
  unfold dictGet
  rw [find?_append_eq]
  cases h : l₁.find? (fun kv => kv.1 == k) <;> simp [h]

theorem dictGet_map_of_key {α β : Type} (a : Dict α) (g : String × α → String × β)
    (gkey : ∀ kv, (g kv).1 = kv.1) (k : String) :
    dictGet (a.map g) k
      = (a.find? (fun kv => kv.1 == k)).map (fun kv => (g kv).2) := by
  unfold dictGet
  rw [find?_map_eq]
  simp only [gkey]
  cases h : a.find? (fun kv => kv.1 == k) <;> simp [h]

theorem dictGet_dictMerge {α : Type} (a b : Dict α) (k : String) :
    dictGet (dictMerge a b) k
      = match dictGet b k with
        | some w => some w
        | none => dictGet a k := by
  have gkey : ∀ kv : String × α,
      ((match dictGet b kv.1 with
        | some w => (kv.1, w)
        | none => kv) : String × α).1 = kv.1 := by
    intro kv
    cases h : dictGet b kv.1 <;> simp [h]
  unfold dictMerge
  rw [dictGet_append, dictGet_map_of_key _ _ gkey]
  cases ha : a.find? (fun kv => kv.1 == k) with
  | some kv =>
      have hk : kv.1 = k := by simpa using List.find?_some ha
      have hda : dictGet a k = some kv.2 := by
        unfold dictGet
        rw [ha]
        rfl
      cases hbkv : dictGet b kv.1 with
      | some w =>
          have hb : dictGet b k = some w := by
            rw [← hk]
            exact hbkv
          simp [hbkv, hb]
      | none =>
          have hb : dictGet b k = none := by
            rw [← hk]
            exact hbkv
          simp [hbkv, hb, hda]
  | none =>
      have hda : dictGet a k = none := by
        unfold dictGet
        rw [ha]
        rfl
      have himp : ∀ kv : String × α,
          (kv.1 == k) = true → ((dictGet a kv.1).isNone) = true := by
        intro kv hkv
        have hk : kv.1 = k := by simpa using hkv
        rw [hk, hda]
        rfl
      have hfil : dictGet (b.filter (fun kv => (dictGet a kv.1).isNone)) k
          = dictGet b k :=
        congrArg (Option.map (fun x : String × α => x.2))
          (find?_filter_of_imp b (fun kv => kv.1 == k)
            (fun kv => (dictGet a kv.1).isNone) himp)
      show dictGet (b.filter (fun kv => (dictGet a kv.1).isNone)) k
          = match dictGet b k with
            | some w => some w
            | none => dictGet a k
      rw [hfil, hda]
      cases hb : dictGet b k <;> rfl

theorem dictGet_wrap (un : Dict String) (k : String) :
    dictGet (un.map (fun kv => (kv.1, [kv.2]))) k
      = (dictGet un k).map (fun p => [p]) := by
  rw [dictGet_map_of_key un (fun kv => (kv.1, [kv.2])) (fun kv => rfl)]
  unfold dictGet
  cases h : un.find? (fun kv => kv.1 == k) <;> simp [h]

/-- C6: on resume the initial classification store is exactly the merge of
the persisted duplicates mapping with the uniques mapping whose values
were first wrapped into one-element sequences (the uniques value, wrapped,
wins on a key clash), so every key of either artifact maps to a sequence
of paths in the reconstructed store. -/
theorem resume_merge_characterization (dup_dict : Dict (List String))
    (un_dict : Dict String) :
    (∀ k, dictGet (resumeState dup_dict un_dict).1 k
        = match dictGet un_dict k with
          | some p => some [p]
          | none => dictGet dup_dict k) ∧
    (∀ k, ((dictGet dup_dict k).isSome ∨ (dictGet un_dict k).isSome) →
      ((dictGet (resumeState dup_dict un_dict).1 k).isSome)) := by
  have hchar : ∀ k, dictGet (resumeState dup_dict un_dict).1 k
      = match dictGet un_dict k with
        | some p => some [p]
        | none => dictGet dup_dict k := by
    intro k
    show dictGet (dictMerge dup_dict
        (un_dict.map (fun kv => (kv.1, [kv.2])))) k = _
    rw [dictGet_dictMerge, dictGet_wrap]
    cases h : dictGet un_dict k <;> simp
  refine ⟨hchar, fun k hk => ?_⟩
  rw [hchar k]
  cases h : dictGet un_dict k with
  | some p => simp
  | none =>
      rcases hk with hk | hk
      · simpa using hk
      · rw [h] at hk
        simp at hk

/-- Witness for C6 at a concrete pair of artifacts. -/
theorem resume_merge_characterization_witness :
    ((dictGet ([("a", ["p", "q"])] : Dict (List String)) "a").isSome ∨
      (dictGet ([("b", "r")] : Dict String) "a").isSome) ∧
    ((dictGet (resumeState [("a", ["p", "q"])] [("b", "r")]).1 "a").isSome) :=
  ⟨Or.inl (by decide),
   (resume_merge_characterization [("a", ["p", "q"])] [("b", "r")]).2 "a"
     (Or.inl (by decide))⟩

/-- C10: when a digest key occurs in both persisted artifacts, the merge
keeps only the uniques value, wrapped as a one-element sequence, and the
duplicates artifact's whole path sequence for that digest is discarded. -/
theorem resume_merge_prefers_unique (dup_dict : Dict (List String))
    (un_dict : Dict String) (k : String) (v : List String) (p : String)
    (hd : dictGet dup_dict k = some v) (hu : dictGet un_dict k = some p) :
    dictGet (resumeState dup_dict un_dict).1 k = some [p] := by
  show dictGet (dictMerge dup_dict
      (un_dict.map (fun kv => (kv.1, [kv.2])))) k = some [p]
  rw [dictGet_dictMerge, dictGet_wrap, hu]
  rfl

/-- Witness for C10 at a concrete key clash. -/
theorem resume_merge_prefers_unique_witness :
    dictGet ([("d", ["x", "y"])] : Dict (List String)) "d" = some ["x", "y"] ∧
    dictGet ([("d", "z")] : Dict String) "d" = some "z" ∧
    dictGet (resumeState [("d", ["x", "y"])] [("d", "z")]).1 "d" = some ["z"] :=
  ⟨by decide, by decide,
   resume_merge_prefers_unique [("d", ["x", "y"])] [("d", "z")] "d"
     ["x", "y"] "z" (by decide) (by decide)⟩

/-- C5: configuration errors are fatal and precede all hashing work: a
missing root directory raises ValueError; a restart with a missing
duplicates or uniques file raises FileNotFoundError; in every such case
the write trace is empty, so no partial output is produced. -/
theorem run_hash_config_errors (env : Env) :
    (env.dirExists = false →
      ∀ restart, run_hash env restart
        = ([], Except.error "Please provide a known filepath!")) ∧
    (env.dirExists = true → env.dupfileExists = false →
      run_hash env true
        = ([], Except.error
            (env.dupfilePath ++ " must exist to restart a hash run!"))) ∧
    (env.dirExists = true → env.dupfileExists = true →
      env.unfileExists = false →
      run_hash env true
        = ([], Except.error
            (env.unfilePath ++ " must exist to restart a hash run!"))) := by
  refine ⟨fun h _ => ?_, fun h1 h2 => ?_, fun h1 h2 h3 => ?_⟩
  · simp [run_hash, h]
  · simp [run_hash, h1, h2]
  · simp [run_hash, h1, h2, h3]

/-- Witness for C5 on a concrete environment. -/
theorem run_hash_config_errors_witness :
    envMissingDir.dirExists = false ∧
    run_hash envMissingDir false
      = ([], Except.error "Please provide a known filepath!") :=
  ⟨rfl, (run_hash_config_errors envMissingDir).1 rfl false⟩

/-- C1 at its failing input: files_to_skip holds the stored full path
"/x/a.txt", not the base name, so the bare name "a.txt" yielded by the
walk is not skipped; the file is re-hashed (one write occurs) and its path
is appended a second time to the d1 sequence. -/
theorem run_hash_restart_rehashes_recorded_file :
    (resumeState [] [("d1", "/x/a.txt")]).2 = ["/x/a.txt"] ∧
    ¬ ("a.txt" ∈ (resumeState [] [("d1", "/x/a.txt")]).2) ∧
    (run_hash envC1 true).2 = Except.ok [("d1", ["/x/a.txt", "/x/a.txt"])] ∧
    (run_hash envC1 true).1.length = 1 := by
  refine ⟨by decide, by decide, ?_, ?_⟩
  · rfl
  · rfl

/-- C2 counterexample: with one unreadable file in a two-file batch, the
exception re-raised by future.result() escapes run_hash: the run ends with
the error instead of continuing, nothing is written, and the healthy
sibling's result is discarded rather than recorded. -/
theorem run_hash_io_error_aborts :
    run_hash envC2 false
      = ([], Except.error "Permission denied: /r/bad.txt") := by
  rfl

/-- C2 amended: an I/O failure of one hashing task is re-raised in the
coordinating thread when the task's result is retrieved and aborts the
run; the results retrieved before the failure are recorded and persisted
(exactly their writes happen), while the failing path and every result
retrieved after it are never recorded in the classification store. -/
theorem processBatch_error_aborts (oks : List (String × String)) (e : String)
    (rest : List (Except String (String × String)))
    (hashes : Dict (List String)) :
    processBatch (oks.map Except.ok ++ Except.error e :: rest) hashes
      = ((processBatch (oks.map Except.ok) hashes).1, Except.error e) := by
  induction oks generalizing hashes with
  | nil => rfl
  | cons hd tl ih =>
      obtain ⟨h, p⟩ := hd
      simp [processBatch, ih]

theorem sorted_strict_of_keysNodup {α : Type} {l : Dict α}
    (hs : List.Sorted (fun a b : String × α => a.1 ≤ b.1) l)
    (hnd : keysNodup l) :
    List.Sorted (fun a b : String × α => a.1 < b.1) l := by
  unfold keysNodup at hnd
  rw [List.nodup_iff_sublist] at hnd
  have hne : List.Pairwise (fun a b : String × α => a.1 ≠ b.1) l := by
    have : (l.map (fun kv => kv.1)).Nodup := by
      rw [List.nodup_iff_sublist]
      exact hnd
    rw [List.Nodup, List.pairwise_map] at this
    exact this
  exact (hs.and hne).imp (fun h => lt_of_le_of_ne h.1 h.2)

theorem sortDict_eq_of_perm {α : Type} {d1 d2 : Dict α} (hp : d1.Perm d2)
    (h1 : keysNodup d1) : sortDict d1 = sortDict d2 := by
  have h2 : keysNodup d2 := by
    unfold keysNodup at *
    exact (hp.map (fun kv => kv.1)).nodup_iff.mp h1
  have hperm : (sortDict d1).Perm (sortDict d2) :=
    (List.perm_insertionSort (fun a b : String × α => a.1 ≤ b.1) d1).trans
      (hp.trans (List.perm_insertionSort (fun a b : String × α => a.1 ≤ b.1) d2).symm)
  have hn1 : keysNodup (sortDict d1) := by
    unfold keysNodup at *
    exact ((List.perm_insertionSort (fun a b : String × α => a.1 ≤ b.1) d1).map (fun kv => kv.1)).nodup_iff.mpr h1
  have hn2 : keysNodup (sortDict d2) := by
    unfold keysNodup at *
    exact ((List.perm_insertionSort (fun a b : String × α => a.1 ≤ b.1) d2).map (fun kv => kv.1)).nodup_iff.mpr h2
  exact List.eq_of_perm_of_sorted hperm
    (sorted_strict_of_keysNodup
      (List.sorted_insertionSort (fun a b : String × α => a.1 ≤ b.1) d1) hn1)
    (sorted_strict_of_keysNodup
      (List.sorted_insertionSort (fun a b : String × α => a.1 ≤ b.1) d2) hn2)

theorem uniqueEntry_key {kv : String × List String} {x : String × String}
    (h : uniqueEntry kv = some x) : x.1 = kv.1 := by
  obtain ⟨k, p⟩ := x
  rw [uniqueEntry_eq_some] at h
  rw [h]

theorem keys_filter_dict_snd_sublist (results : Dict (List String)) :
    List.Sublist ((filter_dict results).2.map (fun kv => kv.1))
      (results.map (fun kv => kv.1)) := by
  induction results with
  | nil => simp [filter_dict]
  | cons kv rest ih =>
      show List.Sublist (((kv :: rest).filterMap uniqueEntry).map
        (fun kv => kv.1)) _
      rw [List.filterMap_cons]
      cases hk : uniqueEntry kv with
      | none =>
          exact ih.cons _
      | some x =>
          rw [List.map_cons, List.map_cons, uniqueEntry_key hk]
          exact ih.cons₂ _

theorem keys_filter_dict_fst_sublist (results : Dict (List String)) :
    List.Sublist ((filter_dict results).1.map (fun kv => kv.1))
      (results.map (fun kv => kv.1)) :=
  (List.filter_sublist results).map _

/-- C8: after every recorded result the full current partition is
serialized to the two output locations (the write trace of a batch of
successful results is exactly the per-result stores mapped through the
writer), and the writer is deterministic on the logical state: two stores
equal as mappings produce byte-identical (dupfile, unfile) contents,
because both documents are rendered with sorted keys. -/
theorem persistence_full_rewrite_and_deterministic :
    (∀ (oks : List (String × String)) (hashes : Dict (List String)),
      (processBatch (oks.map Except.ok) hashes).1
        = (prefixStores hashes oks).map writeOutputs) ∧
    (∀ s1 s2 : Dict (List String), keysNodup s1 → keysNodup s2 →
      (∀ kv ∈ s1, dictGet s2 kv.1 = some kv.2) →
      (∀ kv ∈ s2, dictGet s1 kv.1 = some kv.2) →
      writeOutputs s1 = writeOutputs s2) := by
  constructor
  · intro oks
    induction oks with
    | nil => intro hashes; rfl
    | cons hd tl ih =>
        intro hashes
        obtain ⟨h, p⟩ := hd
        simp [processBatch, prefixStores, ih]
  · intro s1 s2 h1 h2 h12 h21
    have hnd1 : s1.Nodup := List.Nodup.of_map _ h1
    have hnd2 : s2.Nodup := List.Nodup.of_map _ h2
    have hperm : s1.Perm s2 := by
      rw [List.perm_ext_iff_of_nodup hnd1 hnd2]
      intro kv
      constructor
      · intro h
        exact (dictGet_eq_some_iff h2).mp (h12 kv h)
      · intro h
        exact (dictGet_eq_some_iff h1).mp (h21 kv h)
    have hfst : (filter_dict s1).1.Perm (filter_dict s2).1 :=
      hperm.filter _
    have hsnd : (filter_dict s1).2.Perm (filter_dict s2).2 :=
      hperm.filterMap _
    have hk1 : keysNodup (filter_dict s1).1 :=
      (keys_filter_dict_fst_sublist s1).nodup h1
    have hk2 : keysNodup (filter_dict s1).2 :=
      (keys_filter_dict_snd_sublist s1).nodup h1
    unfold writeOutputs renderDupJson renderUnJson
    rw [sortDict_eq_of_perm hfst hk1, sortDict_eq_of_perm hsnd hk2]

/-- Witness for C8: two stores that differ only in insertion order receive
byte-identical serializations, and a concrete one-result batch writes the
serialization of the store holding that result. -/
theorem persistence_full_rewrite_and_deterministic_witness :
    keysNodup [("b", ["q", "r"]), ("a", ["p"])] ∧
    keysNodup [("a", ["p"]), ("b", ["q", "r"])] ∧
    (∀ kv ∈ ([("b", ["q", "r"]), ("a", ["p"])] : Dict (List String)),
      dictGet [("a", ["p"]), ("b", ["q", "r"])] kv.1 = some kv.2) ∧
    (∀ kv ∈ ([("a", ["p"]), ("b", ["q", "r"])] : Dict (List String)),
      dictGet [("b", ["q", "r"]), ("a", ["p"])] kv.1 = some kv.2) ∧
    writeOutputs [("b", ["q", "r"]), ("a", ["p"])]
      = writeOutputs [("a", ["p"]), ("b", ["q", "r"])] ∧
    (processBatch ([("h1", "/p1")].map Except.ok) []).1
      = (prefixStores [] [("h1", "/p1")]).map writeOutputs :=
  ⟨by unfold keysNodup; decide, by unfold keysNodup; decide,
   by decide, by decide,
   persistence_full_rewrite_and_deterministic.2
     [("b", ["q", "r"]), ("a", ["p"])] [("a", ["p"]), ("b", ["q", "r"])]
     (by unfold keysNodup; decide) (by unfold keysNodup; decide)
     (by decide) (by decide),
   persistence_full_rewrite_and_deterministic.1 [("h1", "/p1")] []⟩

theorem readChunks_chunk_le (b : Nat) :
    ∀ (n : Nat) (content : List Nat), content.length ≤ n →
      ∀ c ∈ readChunks content b, c.length ≤ b := by
  intro n
  induction n with
  | zero =>
      intro content hlen c hc
      have h0 : content = [] := List.eq_nil_of_length_eq_zero
        (Nat.le_zero.mp hlen)
      subst h0
      rw [readChunks] at hc
      by_cases hb : b = 0
      · simp [hb] at hc
      · simp [hb] at hc
  | succ n ih =>
      intro content hlen c hc
      rw [readChunks] at hc
      by_cases hb : b = 0
      · simp [hb] at hc
      · by_cases hce : content.isEmpty = true
        · simp [hb, hce] at hc
        · simp only [dif_neg hb, dif_neg hce, List.mem_cons] at hc
          rcases hc with hc | hc
          · subst hc
            rw [List.length_take]
            exact Nat.min_le_left _ _
          · refine ih (content.drop b) ?_ c hc
            rw [List.length_drop]
            have hpos : 0 < b := Nat.pos_of_ne_zero hb
            omega

theorem readChunks_foldl (b : Nat) (hb : 0 < b) :
    ∀ (n : Nat) (content : List Nat), content.length ≤ n →
      ∀ acc : List Nat,
        (readChunks content b).foldl (fun fed buf => fed ++ buf) acc
          = acc ++ content := by
  have hb' : ¬ (b = 0) := Nat.pos_iff_ne_zero.mp hb
  intro n
  induction n with
  | zero =>
      intro content hlen acc
      have h0 : content = [] := List.eq_nil_of_length_eq_zero
        (Nat.le_zero.mp hlen)
      subst h0
      rw [readChunks]
      simp [hb']
  | succ n ih =>
      intro content hlen acc
      rw [readChunks]
      by_cases hce : content.isEmpty = true
      · have h0 : content = [] := by simpa using hce
        subst h0
        simp [hb']
      · simp only [dif_neg hb', dif_neg hce, List.foldl_cons]
        rw [ih (content.drop b) ?_ (acc ++ content.take b)]
        · rw [List.append_assoc, List.take_append_drop]
        · rw [List.length_drop]
          omega

/-- C4: for every positive buffer size, hashfile reads the file in chunks
of at most blocksize bytes, feeds each chunk into the incremental
accumulator, and returns (digest, path) with the digest computed over the
file's full byte content; the digest is therefore independent of the
chosen buffer size, and an empty file yields the digest of zero bytes as
a successful result. -/
theorem hashfile_spec (md5 : List Nat → String) (path : String)
    (content : List Nat) (b : Nat) (hb : 0 < b) :
    (∀ c ∈ readChunks content b, c.length ≤ b) ∧
    hashfile md5 path content b = (md5 content, path) ∧
    (∀ b', 0 < b' →
      hashfile md5 path content b = hashfile md5 path content b') ∧
    hashfile md5 path [] b = (md5 [], path) := by
  have hmain : ∀ (b0 : Nat), 0 < b0 → ∀ cont : List Nat,
      hashfile md5 path cont b0 = (md5 cont, path) := by
    intro b0 hb0 cont
    unfold hashfile
    rw [readChunks_foldl b0 hb0 cont.length cont le_rfl []]
    rw [List.nil_append]
  refine ⟨readChunks_chunk_le b content.length content le_rfl,
    hmain b hb content, fun b' hb' => ?_, hmain b hb []⟩
  rw [hmain b hb content, hmain b' hb' content]

/-- Witness for C4 at a concrete digest function, file and buffer size. -/
theorem hashfile_spec_witness :
    0 < 2 ∧
    hashfile (fun l => toString l.length) "p" [7, 8, 9] 2
      = ((fun l : List Nat => toString l.length) [7, 8, 9], "p") :=
  ⟨by decide,
   (hashfile_spec (fun l => toString l.length) "p" [7, 8, 9] 2
     (by decide)).2.1⟩

/-- C7 counterexample: a root with no files at all but one subdirectory
named "sub.xml" makes the pre-count return 1. The count ranges over
os.listdir entries, so a matching directory name is counted although it
is not a file. -/
theorem get_total_counts_directory_entry :
    get_total_number_of_files ⟨[], [("sub.xml", [])]⟩ ".xml" = 1 ∧
    totalMatchingFiles ⟨[], [("sub.xml", [])]⟩ ".xml" = 0 := by
  constructor
  · decide
  · decide

/-- C7 amended: the pre-count equals the number of matching direct entries
of the root, file names plus subdirectory names; it depends only on the
root's direct listing and never on nested files, so it only approximates
the true total when files are nested in subdirectories. -/
theorem get_total_direct_entries_only :
    (∀ (r1 r2 : RootDir) (ext : String), listdirOf r1 = listdirOf r2 →
      get_total_number_of_files r1 ext = get_total_number_of_files r2 ext) ∧
    (∀ (files : List String) (ext : String),
      get_total_number_of_files ⟨files, []⟩ ext
        = (files.filter (matchesExt ext)).length) ∧
    (∀ (files : List String) (subs : List (String × List String))
        (ext : String),
      get_total_number_of_files ⟨files, subs⟩ ext
        = (files.filter (matchesExt ext)).length
          + ((subs.map (fun sd => sd.1)).filter (matchesExt ext)).length) := by
  refine ⟨fun r1 r2 ext h => ?_, fun files ext => ?_, fun files subs ext => ?_⟩
  · unfold get_total_number_of_files
    rw [h]
  · simp [get_total_number_of_files, listdirOf]
  · simp [get_total_number_of_files, listdirOf, List.filter_append]

/-- Witness for C7's amended statement: two roots with the same direct
listing but different nested files receive the same pre-count. -/
theorem get_total_direct_entries_only_witness :
    listdirOf ⟨["a.xml"], [("s", ["b.xml"])]⟩
      = listdirOf ⟨["a.xml"], [("s", ["c.xml", "d.xml"])]⟩ ∧
    get_total_number_of_files ⟨["a.xml"], [("s", ["b.xml"])]⟩ ".xml"
      = get_total_number_of_files ⟨["a.xml"], [("s", ["c.xml", "d.xml"])]⟩
          ".xml" :=
  ⟨rfl,
   get_total_direct_entries_only.1 ⟨["a.xml"], [("s", ["b.xml"])]⟩
     ⟨["a.xml"], [("s", ["c.xml", "d.xml"])]⟩ ".xml" rfl⟩

end Deduplify
